import Mathlib

/-!
Verification of the rewards-scanner core pipeline (table-dependency scanner).

The definitions below are a shallow embedding of the Python sources:
  * `models.py`     — `Confidence`, `ReferenceType`, `ScanResult`, `dedup_key`
  * `runner.py`     — `_deduplicate`, `_validate_schema_columns`,
                      `_extract_schema_columns`, the post-scan pipeline of
                      `run_scan`, and the statistics dictionary it returns
  * `inflection.py` — `singularize`, `pluralize`, irregular-noun tables
  * `scanners/`     — the scanner registry and the `scan_all` signatures

Python dicts are modelled as association lists with Python's insertion-order
update semantics (assignment to an existing key keeps its position, a new key
is appended at the end).  Evidence records are immutable Lean structures;
Python's in-place field mutation becomes a record update.
-/

namespace RewardsScanner

/-- Confidence levels, from `models.py` (`Confidence` enum). -/
inductive Confidence where
  | HIGH
  | MEDIUM
  | LOW
deriving DecidableEq, Repr

/-- The rank used by the comparison operators of `Confidence` in `models.py`
(the `order` dict: LOW 0, MEDIUM 1, HIGH 2). -/
def Confidence.rank : Confidence → Nat
  | .LOW => 0
  | .MEDIUM => 1
  | .HIGH => 2

/-- `Confidence.__gt__` from `models.py`: strict comparison of ranks. -/
def Confidence.gt (a b : Confidence) : Bool := b.rank < a.rank

/-- `Confidence.__ge__` from `models.py`: non-strict comparison of ranks. -/
def Confidence.ge (a b : Confidence) : Bool := b.rank ≤ a.rank

/-- Reference kinds, from `models.py` (`ReferenceType` enum). -/
inductive ReferenceType where
  | SCHEMA_COLUMN
  | SCHEMA_REFERENCE
  | MIGRATION_ADD_REFERENCE
  | MIGRATION_ADD_COLUMN
  | MIGRATION_ADD_FOREIGN_KEY
  | MIGRATION_CREATE_TABLE_REF
  | MIGRATION_REMOVE
  | MODEL_BELONGS_TO
  | MODEL_HAS_MANY
  | MODEL_HAS_ONE
  | MODEL_HAS_MANY_THROUGH
  | MODEL_INDIRECT_ASSOCIATION
  | MODEL_HAS_MANY_REVERSE
  | MODEL_HAS_ONE_REVERSE
  | RAW_SQL_COLUMN_REF
  | RAW_SQL_TABLE_REF
  | RAW_SQL_JOIN
  | RAW_SQL_QUERY_METHOD
  | RAW_SQL_INTERPOLATION
  | CONFIG_TABLE_REF
  | CONTEXTUAL_VARIABLE
  | CONTEXTUAL_COMMENT
  | POLYMORPHIC_SCHEMA
  | POLYMORPHIC_MODEL
deriving DecidableEq, Repr

/-- Evidence record, from `models.py` (`ScanResult` dataclass).
`schema_verified` defaults to `true`; `column_datatype` is the attribute the
Validator attaches (absent, i.e. `none`, until then). -/
structure ScanResult where
  file_path : String
  line_number : Nat
  table_name : String
  column_name : String
  reference_type : ReferenceType
  code_snippet : String
  confidence : Confidence
  schema_verified : Bool := true
  column_datatype : Option String := none
deriving DecidableEq, Repr

/-- The deduplication identity key, from `models.py` (`ScanResult.dedup_key`). -/
def ScanResult.dedup_key (r : ScanResult) : String × Nat × ReferenceType :=
  (r.file_path, r.line_number, r.reference_type)

/-- Keys of the `best` dict in `_deduplicate`. -/
abbrev DKey := String × Nat × ReferenceType

/-- One iteration of the loop body of `_deduplicate` (runner.py lines 289-295):
`if key not in best or r.confidence > best[key].confidence: best[key] = r`.
Python dict assignment keeps an existing key at its position and appends a
new key at the end. -/
def updateBest (best : List (DKey × ScanResult)) (r : ScanResult) :
    List (DKey × ScanResult) :=
  match best with
  | [] => [(r.dedup_key, r)]
  | p :: rest =>
    if p.1 = r.dedup_key then
      if Confidence.gt r.confidence p.2.confidence then (p.1, r) :: rest
      else p :: rest
    else p :: updateBest rest r

/-- The loop of `_deduplicate` folded over the raw results. -/
def dedupGo (best : List (DKey × ScanResult)) : List ScanResult → List (DKey × ScanResult)
  | [] => best
  | r :: rest => dedupGo (updateBest best r) rest

/-- `_deduplicate` from runner.py: keep the best record per `dedup_key`, then
return `list(best.values())`. -/
def _deduplicate (results : List ScanResult) : List ScanResult :=
  (dedupGo [] results).map Prod.snd

/-- Dict lookup on the association-list model. -/
def lookupK : List (DKey × ScanResult) → DKey → Option ScanResult
  | [], _ => none
  | p :: rest, k => if p.1 = k then some p.2 else lookupK rest k

/-- The survivor for key `k` when folding the records of a list into an
accumulator already holding `cur` for `k`. -/
def bestOf (cur : Option ScanResult) (k : DKey) : List ScanResult → Option ScanResult
  | [] => cur
  | r :: rest =>
    if r.dedup_key = k then
      match cur with
      | none => bestOf (some r) k rest
      | some b =>
        if Confidence.gt r.confidence b.confidence then bestOf (some r) k rest
        else bestOf cur k rest
    else bestOf cur k rest

/-- Specification-side survivor: the first record of the list attaining the
maximum confidence (a later record replaces an earlier one only when strictly
more confident). -/
def firstMax : List ScanResult → Option ScanResult
  | [] => none
  | r :: rest =>
    match firstMax rest with
    | none => some r
    | some b => if Confidence.gt b.confidence r.confidence then some b else some r

/-- Merge of an earlier candidate with the survivor of the remaining records:
the later one wins only when strictly more confident. -/
def combineBest : Option ScanResult → Option ScanResult → Option ScanResult
  | none, m => m
  | some b, none => some b
  | some b, some m =>
    if Confidence.gt m.confidence b.confidence then some m else some b

theorem lookupK_updateBest (best : List (DKey × ScanResult)) (r : ScanResult) (k : DKey) :
    lookupK (updateBest best r) k =
      if r.dedup_key = k then
        match lookupK best k with
        | none => some r
        | some b => if Confidence.gt r.confidence b.confidence then some r else some b
      else lookupK best k := by
  induction best with
  | nil =>
    by_cases h : r.dedup_key = k <;> simp [updateBest, lookupK, h]
  | cons p rest ih =>
    by_cases hp : p.1 = r.dedup_key
    · by_cases hk : r.dedup_key = k
      · subst hk
        by_cases hc : Confidence.gt r.confidence p.2.confidence <;>
          simp [updateBest, lookupK, hp, hc]
      · have hpk : ¬ p.1 = k := by rw [hp]; exact hk
        by_cases hc : Confidence.gt r.confidence p.2.confidence <;>
          simp [updateBest, lookupK, hp, hc, hpk, hk]
    · by_cases hpk : p.1 = k
      · have hk : ¬ r.dedup_key = k := by
          intro h; exact hp (hpk.trans h.symm)
        have hk2 : ¬ k = r.dedup_key := fun h => hk h.symm
        simp [updateBest, lookupK, hp, hpk, hk, hk2]
      · simp [updateBest, lookupK, hp, hpk, ih]

theorem lookupK_dedupGo (rs : List ScanResult) (best : List (DKey × ScanResult)) (k : DKey) :
    lookupK (dedupGo best rs) k = bestOf (lookupK best k) k rs := by
  induction rs generalizing best with
  | nil => simp [dedupGo, bestOf]
  | cons r rest ih =>
    rw [dedupGo, ih, lookupK_updateBest]
    by_cases hk : r.dedup_key = k
    · cases hb : lookupK best k with
      | none => simp [bestOf, hk, hb]
      | some b =>
        by_cases hc : Confidence.gt r.confidence b.confidence <;>
          simp [bestOf, hk, hb, hc]
    · simp [bestOf, hk]

theorem combineBest_step (b r : ScanResult) (m : Option ScanResult) :
    combineBest (some b) (combineBest (some r) m) =
      if Confidence.gt r.confidence b.confidence then combineBest (some r) m
      else combineBest (some b) m := by
  cases m with
  | none => simp [combineBest]
  | some x =>
    by_cases hxr : Confidence.gt x.confidence r.confidence <;>
      by_cases hrb : Confidence.gt r.confidence b.confidence <;>
        by_cases hxb : Confidence.gt x.confidence b.confidence <;>
          simp [combineBest, hxr, hrb, hxb] <;>
            (simp only [Confidence.gt, decide_eq_true_eq,
              Bool.not_eq_true, decide_eq_false_iff_not] at hxr hrb hxb; omega)

theorem bestOf_eq_firstMax (rs : List ScanResult) (k : DKey) (cur : Option ScanResult) :
    bestOf cur k rs =
      combineBest cur (firstMax (rs.filter (fun r => decide (r.dedup_key = k)))) := by
  induction rs generalizing cur with
  | nil => cases cur <;> simp [bestOf, firstMax, combineBest]
  | cons r rest ih =>
    by_cases hk : r.dedup_key = k
    · have hfm : firstMax (r :: rest.filter (fun x => decide (x.dedup_key = k))) =
          combineBest (some r) (firstMax (rest.filter (fun x => decide (x.dedup_key = k)))) := by
        rw [firstMax]
        cases firstMax (rest.filter (fun x => decide (x.dedup_key = k))) <;>
          simp [combineBest]
      cases cur with
      | none =>
        rw [List.filter_cons_of_pos (by simpa using hk), hfm]
        simp only [bestOf, hk, if_pos]
        rw [ih]
        cases firstMax (rest.filter (fun x => decide (x.dedup_key = k))) <;>
          simp [combineBest]
      | some b =>
        rw [List.filter_cons_of_pos (by simpa using hk), hfm]
        simp only [bestOf, hk, if_pos]
        rw [combineBest_step]
        by_cases hc : Confidence.gt r.confidence b.confidence <;> simp [hc, ih]
    · rw [List.filter_cons_of_neg (by simpa using hk)]
      simp only [bestOf, hk, if_neg, ite_false]
      cases cur <;> exact ih _

theorem lookupK_deduplicate (rs : List ScanResult) (k : DKey) :
    lookupK (dedupGo [] rs) k =
      firstMax (rs.filter (fun r => decide (r.dedup_key = k))) := by
  rw [lookupK_dedupGo]
  simp only [lookupK]
  rw [bestOf_eq_firstMax]
  cases firstMax (rs.filter (fun r => decide (r.dedup_key = k))) <;> simp [combineBest]

/-- Invariant of the `best` dict: each stored record's `dedup_key` is its key. -/
def keysOk (best : List (DKey × ScanResult)) : Prop :=
  ∀ p ∈ best, p.2.dedup_key = p.1

theorem keysOk_updateBest (best : List (DKey × ScanResult)) (r : ScanResult)
    (h : keysOk best) : keysOk (updateBest best r) := by
  induction best with
  | nil =>
    intro p hp
    simp [updateBest] at hp
    subst hp; rfl
  | cons q rest ih =>
    have hq := h q (by simp)
    have hrest : keysOk rest := fun p hp => h p (by simp [hp])
    by_cases h1 : q.1 = r.dedup_key
    · by_cases hc : Confidence.gt r.confidence q.2.confidence
      · intro p hp
        simp [updateBest, h1, hc] at hp
        rcases hp with hp | hp
        · subst hp; simpa using h1.symm
        · exact h p (by simp [hp])
      · intro p hp
        simp [updateBest, h1, hc] at hp
        rcases hp with hp | hp
        · subst hp; exact hq
        · exact h p (by simp [hp])
    · intro p hp
      simp [updateBest, h1] at hp
      rcases hp with hp | hp
      · subst hp; exact hq
      · exact ih hrest p hp

theorem fst_mem_updateBest (best : List (DKey × ScanResult)) (r : ScanResult) (x : DKey)
    (hx : x ∈ (updateBest best r).map Prod.fst) :
    x ∈ best.map Prod.fst ∨ x = r.dedup_key := by
  induction best with
  | nil =>
    simp [updateBest] at hx
    simp [hx]
  | cons q rest ih =>
    by_cases h1 : q.1 = r.dedup_key
    · by_cases hc : Confidence.gt r.confidence q.2.confidence <;>
        simp [updateBest, h1, hc] at hx <;> rcases hx with hx | hx <;> simp [hx, h1]
    · simp only [updateBest, h1, if_neg, ite_false, List.map_cons, List.mem_cons] at hx
      rcases hx with hx | hx
      · exact Or.inl (by simp [hx])
      · rcases ih hx with h2 | h2
        · exact Or.inl (by simp [h2])
        · exact Or.inr h2

theorem keysNodup_updateBest (best : List (DKey × ScanResult)) (r : ScanResult)
    (h : (best.map Prod.fst).Nodup) : ((updateBest best r).map Prod.fst).Nodup := by
  induction best with
  | nil => simp [updateBest]
  | cons q rest ih =>
    simp only [List.map_cons, List.nodup_cons] at h
    by_cases h1 : q.1 = r.dedup_key
    · simp only [updateBest, h1, if_pos, ite_true]
      by_cases hc : Confidence.gt r.confidence q.2.confidence
      · rw [if_pos hc]
        simp only [List.map_cons, List.nodup_cons]
        exact ⟨h1 ▸ h.1, h.2⟩
      · rw [if_neg hc]
        simp only [List.map_cons, List.nodup_cons]
        exact ⟨h1 ▸ h.1, h.2⟩
    · simp only [updateBest, h1, if_neg, ite_false, List.map_cons, List.nodup_cons]
      refine ⟨?_, ih h.2⟩
      intro hmem
      rcases fst_mem_updateBest rest r q.1 hmem with h2 | h2
      · exact h.1 h2
      · exact h1 h2

theorem keysOk_dedupGo (rs : List ScanResult) (best : List (DKey × ScanResult))
    (h : keysOk best) : keysOk (dedupGo best rs) := by
  induction rs generalizing best with
  | nil => exact h
  | cons r rest ih => exact ih _ (keysOk_updateBest best r h)

theorem keysNodup_dedupGo (rs : List ScanResult) (best : List (DKey × ScanResult))
    (h : (best.map Prod.fst).Nodup) : ((dedupGo best rs).map Prod.fst).Nodup := by
  induction rs generalizing best with
  | nil => exact h
  | cons r rest ih => exact ih _ (keysNodup_updateBest best r h)

theorem lookupK_of_mem (best : List (DKey × ScanResult)) (p : DKey × ScanResult)
    (hk : keysOk best) (hn : (best.map Prod.fst).Nodup) (hp : p ∈ best) :
    lookupK best p.1 = some p.2 := by
  induction best with
  | nil => simp at hp
  | cons q rest ih =>
    simp only [List.map_cons, List.nodup_cons] at hn
    rcases List.mem_cons.mp hp with hq | hmem
    · subst hq; simp [lookupK]
    · have hne : ¬ q.1 = p.1 := by
        intro he
        exact hn.1 (he ▸ List.mem_map.mpr ⟨p, hmem, rfl⟩)
      simp only [lookupK, hne, if_neg, ite_false]
      exact ih (fun x hx => hk x (by simp [hx])) hn.2 hmem

theorem firstMax_ne_none (r : ScanResult) (rest : List ScanResult) :
    firstMax (r :: rest) ≠ none := by
  rw [firstMax]
  cases firstMax rest with
  | none => simp
  | some b => by_cases hc : Confidence.gt b.confidence r.confidence <;> simp [hc]

theorem firstMax_mem (l : List ScanResult) (m : ScanResult) (h : firstMax l = some m) :
    m ∈ l := by
  induction l with
  | nil => simp [firstMax] at h
  | cons r rest ih =>
    rw [firstMax] at h
    cases hf : firstMax rest with
    | none => rw [hf] at h; simp at h; simp [h]
    | some b =>
      rw [hf] at h
      by_cases hc : Confidence.gt b.confidence r.confidence
      · simp [hc] at h
        exact List.mem_cons_of_mem _ (ih (h ▸ hf))
      · simp [hc] at h
        simp [h]

theorem firstMax_max (l : List ScanResult) (m : ScanResult) (h : firstMax l = some m) :
    ∀ x ∈ l, x.confidence.rank ≤ m.confidence.rank := by
  induction l generalizing m with
  | nil => simp [firstMax] at h
  | cons r rest ih =>
    rw [firstMax] at h
    intro x hx
    cases hf : firstMax rest with
    | none =>
      rw [hf] at h
      simp only [Option.some.injEq] at h
      subst h
      rcases List.mem_cons.mp hx with hx | hx
      · subst hx; exact le_refl _
      · cases rest with
        | nil => simp at hx
        | cons a tail => exact absurd hf (firstMax_ne_none a tail)
    | some b =>
      rw [hf] at h
      rcases List.mem_cons.mp hx with hx | hx
      · subst hx
        by_cases hc : Confidence.gt b.confidence x.confidence
        · simp [hc] at h
          subst h
          simp only [Confidence.gt, decide_eq_true_eq] at hc
          omega
        · simp [hc] at h
          subst h
          exact le_refl _
      · have hxb := ih b hf x hx
        by_cases hc : Confidence.gt b.confidence r.confidence
        · simp [hc] at h; subst h; exact hxb
        · simp [hc] at h
          subst h
          simp only [Confidence.gt, decide_eq_true_eq] at hc
          omega

theorem firstMax_first (l : List ScanResult) (m : ScanResult) (h : firstMax l = some m) :
    l.find? (fun x => decide (x.confidence = m.confidence)) = some m := by
  induction l generalizing m with
  | nil => simp [firstMax] at h
  | cons r rest ih =>
    rw [firstMax] at h
    cases hf : firstMax rest with
    | none =>
      rw [hf] at h
      simp only [Option.some.injEq] at h
      subst h
      simp [List.find?]
    | some b =>
      rw [hf] at h
      by_cases hc : Confidence.gt b.confidence r.confidence
      · have hbm : b = m := by simpa [hc] using h
        rw [← hbm]
        have hne : ¬ r.confidence = b.confidence := by
          intro he
          simp only [Confidence.gt, decide_eq_true_eq] at hc
          rw [he] at hc
          omega
        rw [List.find?_cons_of_neg _ (by simpa using hne)]
        exact ih b hf
      · have hbm : r = m := by simpa [hc] using h
        rw [← hbm]
        exact List.find?_cons_of_pos _ (by simp)

theorem mem_deduplicate_lookup (rs : List ScanResult) (r' : ScanResult)
    (h : r' ∈ _deduplicate rs) :
    firstMax (rs.filter (fun r => decide (r.dedup_key = r'.dedup_key))) = some r' := by
  rcases List.mem_map.mp h with ⟨p, hp, hsnd⟩
  have hk : keysOk (dedupGo [] rs) := keysOk_dedupGo rs [] (by intro x hx; simp at hx)
  have hn : ((dedupGo [] rs).map Prod.fst).Nodup := keysNodup_dedupGo rs [] (by simp)
  have hl := lookupK_of_mem _ p hk hn hp
  have hkey : p.1 = r'.dedup_key := by rw [← hsnd]; exact (hk p hp).symm
  rw [hkey, hsnd] at hl
  rw [← lookupK_deduplicate, hl]

/-- Helper for C2: the surviving records of `_deduplicate` have pairwise
distinct identity keys. -/
theorem deduplicate_keys_nodup (rs : List ScanResult) :
    (_deduplicate rs).Pairwise (fun a b => a.dedup_key ≠ b.dedup_key) := by
  have hk : keysOk (dedupGo [] rs) := keysOk_dedupGo rs [] (by intro x hx; simp at hx)
  have hn : ((dedupGo [] rs).map Prod.fst).Nodup := keysNodup_dedupGo rs [] (by simp)
  have hpair : (dedupGo [] rs).Pairwise (fun p q => p.1 ≠ q.1) := by
    rw [List.Nodup, List.pairwise_map] at hn
    exact hn
  rw [_deduplicate, List.pairwise_map]
  have : ∀ p ∈ dedupGo [] rs, ∀ q ∈ dedupGo [] rs, p.1 ≠ q.1 → p.2.dedup_key ≠ q.2.dedup_key := by
    intro p hp q hq hne he
    exact hne ((hk p hp) ▸ (hk q hq) ▸ (by rw [he]))
  exact List.Pairwise.imp_of_mem (fun {p q} hp hq hne => this p hp q hq hne) hpair

/-- Helper: every record surviving `_deduplicate` comes from the raw list. -/
theorem deduplicate_subset (rs : List ScanResult) (r' : ScanResult)
    (h : r' ∈ _deduplicate rs) : r' ∈ rs :=
  (List.mem_filter.mp (firstMax_mem _ _ (mem_deduplicate_lookup rs r' h))).1

/-- C2: for every list of raw evidence records, `_deduplicate` returns at most
one record per identity key (file path, line number, reference kind); each
surviving record comes from the raw list, its confidence is the maximum
confidence among all raw records sharing its key, and it is the first record
encountered among those attaining that maximum (the `find?` over the same-key
records at the surviving confidence returns the survivor itself). -/
theorem deduplicate_unique_max_first (rs : List ScanResult) :
    (_deduplicate rs).Pairwise (fun a b => a.dedup_key ≠ b.dedup_key) ∧
    ∀ r' ∈ _deduplicate rs,
      r' ∈ rs ∧
      (∀ r ∈ rs, r.dedup_key = r'.dedup_key → r.confidence.rank ≤ r'.confidence.rank) ∧
      (rs.filter (fun r => decide (r.dedup_key = r'.dedup_key))).find?
          (fun r => decide (r.confidence = r'.confidence)) = some r' := by
  refine ⟨deduplicate_keys_nodup rs, ?_⟩
  intro r' hr'
  have hfm := mem_deduplicate_lookup rs r' hr'
  have hmem := firstMax_mem _ _ hfm
  have hmax := firstMax_max _ _ hfm
  refine ⟨(List.mem_filter.mp hmem).1, ?_, firstMax_first _ _ hfm⟩
  intro r hr hk
  exact hmax r (List.mem_filter.mpr ⟨hr, by simp [hk]⟩)

/-- A raw MEDIUM-confidence hit, used to instantiate the C2 theorem. -/
def sampleMedium : ScanResult :=
  { file_path := "app/models/order.rb"
    line_number := 3
    table_name := "orders"
    column_name := "reward_id"
    reference_type := .MODEL_BELONGS_TO
    code_snippet := "belongs_to :reward"
    confidence := .MEDIUM }

/-- A HIGH-confidence hit sharing `sampleMedium`'s identity key. -/
def sampleHigh : ScanResult :=
  { sampleMedium with
    confidence := Confidence.HIGH
    code_snippet := "belongs_to :reward, optional: false" }

/-- Witness for C2: the theorem applied to a concrete two-record list whose
records share one identity key; the HIGH record survives. -/
theorem deduplicate_unique_max_first_witness :
    sampleHigh ∈ [sampleMedium, sampleHigh] ∧
    (∀ r ∈ [sampleMedium, sampleHigh],
      r.dedup_key = sampleHigh.dedup_key → r.confidence.rank ≤ sampleHigh.confidence.rank) ∧
    ([sampleMedium, sampleHigh].filter
        (fun r => decide (r.dedup_key = sampleHigh.dedup_key))).find?
      (fun r => decide (r.confidence = sampleHigh.confidence)) = some sampleHigh :=
  (deduplicate_unique_max_first [sampleMedium, sampleHigh]).2 sampleHigh (by decide)

/-! ## Validator: `_validate_schema_columns` (runner.py lines 86-129) -/

/-- Lookup in a string-keyed Python dict, modelled as an association list. -/
def lookupStr {α : Type} : List (String × α) → String → Option α
  | [], _ => none
  | p :: rest, k => if p.1 = k then some p.2 else lookupStr rest k

/-- The nested dict built by `_extract_schema_columns`:
table name -> (column name -> declared datatype). -/
abbrev SchemaColumns := List (String × List (String × String))

/-- `_validate_schema_columns` from runner.py: cross-check each result's
(table_name, column_name) pair against the schema column map.  Empty column
names and tables absent from the map pass through; a confirmed column gets its
datatype attached; an unconfirmed column is dropped in strict mode and kept
with `schema_verified := false` and confidence LOW in lenient mode. -/
def _validate_schema_columns (results : List ScanResult)
    (schema_columns : SchemaColumns) (strict_mode : Bool) : List ScanResult :=
  match results with
  | [] => []
  | r :: rest =>
    let tail := _validate_schema_columns rest schema_columns strict_mode
    if r.column_name = "" then r :: tail
    else
      match lookupStr schema_columns r.table_name with
      | none => r :: tail
      | some table_cols =>
        match lookupStr table_cols r.column_name with
        | some dt => { r with column_datatype := some dt } :: tail
        | none =>
          if strict_mode then tail
          else { r with schema_verified := false, confidence := Confidence.LOW } :: tail

/-- Modelled from the spec's validation contract, per record: for evidence with
a non-empty column whose (table, column) pair is absent from the schema column
map, strict mode drops the record (`none`) and lenient mode keeps it with
confidence forced to LOW and `schema_verified` false; an empty column or a
table with no schema entry passes through unchanged; a present pair is kept
with the declared datatype attached. -/
def validateOneSpec (schema_columns : SchemaColumns) (strict_mode : Bool)
    (r : ScanResult) : Option ScanResult :=
  if r.column_name = "" then some r
  else
    match lookupStr schema_columns r.table_name with
    | none => some r
    | some table_cols =>
      match lookupStr table_cols r.column_name with
      | some dt => some { r with column_datatype := some dt }
      | none =>
        if strict_mode then none
        else some { r with schema_verified := false, confidence := Confidence.LOW }

/-- C3: the Validator is exactly the per-record spec behaviour mapped over the
result list: strict mode drops a record whose non-empty column is missing from
its table's schema entry, lenient mode keeps it downgraded to LOW and
unverified, empty-column records and records of tables absent from the column
map pass through unchanged, and a confirmed (table, column) pair is kept with
the declared datatype attached. -/
theorem validate_schema_columns_spec (results : List ScanResult)
    (schema_columns : SchemaColumns) (strict_mode : Bool) :
    _validate_schema_columns results schema_columns strict_mode =
      results.filterMap (validateOneSpec schema_columns strict_mode) := by
  induction results with
  | nil => rfl
  | cons r rest ih =>
    rw [_validate_schema_columns, List.filterMap_cons]
    by_cases h1 : r.column_name = ""
    · simp [validateOneSpec, h1, ih]
    · cases h2 : lookupStr schema_columns r.table_name with
      | none => simp [validateOneSpec, h1, h2, ih]
      | some table_cols =>
        cases h3 : lookupStr table_cols r.column_name with
        | some dt => simp [validateOneSpec, h1, h2, h3, ih]
        | none =>
          cases strict_mode with
          | true => simp [validateOneSpec, h1, h2, h3, ih]
          | false => simp [validateOneSpec, h1, h2, h3, ih]

/-- Case shape of any record surviving `_validate_schema_columns`: it is an
input record, possibly with a datatype attached, or downgraded to
LOW/unverified. -/
theorem mem_validate_schema_columns (results : List ScanResult)
    (schema_columns : SchemaColumns) (strict_mode : Bool) (r' : ScanResult)
    (h : r' ∈ _validate_schema_columns results schema_columns strict_mode) :
    ∃ r ∈ results, r' = r ∨ (∃ dt, r' = { r with column_datatype := some dt }) ∨
      r' = { r with schema_verified := false, confidence := Confidence.LOW } := by
  rw [validate_schema_columns_spec] at h
  rcases List.mem_filterMap.mp h with ⟨r, hr, hv⟩
  refine ⟨r, hr, ?_⟩
  by_cases h1 : r.column_name = ""
  · simp [validateOneSpec, h1] at hv
    exact Or.inl hv.symm
  · cases h2 : lookupStr schema_columns r.table_name with
    | none =>
      simp [validateOneSpec, h1, h2] at hv
      exact Or.inl hv.symm
    | some table_cols =>
      cases h3 : lookupStr table_cols r.column_name with
      | some dt =>
        simp [validateOneSpec, h1, h2, h3] at hv
        exact Or.inr (Or.inl ⟨dt, hv.symm⟩)
      | none =>
        cases strict_mode with
        | true => simp [validateOneSpec, h1, h2, h3] at hv
        | false =>
          simp [validateOneSpec, h1, h2, h3] at hv
          exact Or.inr (Or.inr hv.symm)

/-! ## The post-scan pipeline of `run_scan` (runner.py lines 196-241)

The file-collection and scanner-execution phases are I/O: the raw scanner
output `all_results`, the known-table set, the schema column map, the total
file count and the per-scanner hit counts enter the model as parameters, and
everything from `_deduplicate(all_results)` to the returned dict is modelled
faithfully. -/

/-- The reverse-direction kinds removed by `run_scan` (runner.py line 207). -/
def _REVERSE_TYPES : List ReferenceType :=
  [.MODEL_HAS_MANY_REVERSE, .MODEL_HAS_ONE_REVERSE]

/-- The `confidence_order` dict of runner.py line 223 (HIGH first). -/
def confidence_order : Confidence → Nat
  | .HIGH => 0
  | .MEDIUM => 1
  | .LOW => 2

/-- Comparison on the Python sort key tuple
`(confidence_order[r.confidence], r.file_path, r.line_number)`. -/
def sortKeyLe (a b : ScanResult) : Bool :=
  if confidence_order a.confidence ≠ confidence_order b.confidence then
    decide (confidence_order a.confidence < confidence_order b.confidence)
  else if a.file_path ≠ b.file_path then decide (a.file_path < b.file_path)
  else decide (a.line_number ≤ b.line_number)

/-- `str.lstrip("/")`: drop leading slash characters. -/
def dropSlashes : List Char → List Char
  | [] => []
  | c :: rest => if c = '/' then dropSlashes rest else c :: rest

/-- Stable insertion of a record in front of the first strictly-later element:
the model of one step of Python's stable sort by key. -/
def insertSorted (a : ScanResult) : List ScanResult → List ScanResult
  | [] => [a]
  | b :: rest => if sortKeyLe b a ∧ ¬ sortKeyLe a b then b :: insertSorted a rest
    else a :: b :: rest

/-- `list.sort(key=...)` of runner.py line 224, modelled as a stable insertion
sort on the same key order. -/
def sortResults : List ScanResult → List ScanResult
  | [] => []
  | a :: rest => insertSorted a (sortResults rest)

theorem insertSorted_perm (a : ScanResult) (l : List ScanResult) :
    (insertSorted a l).Perm (a :: l) := by
  induction l with
  | nil => exact List.Perm.refl _
  | cons b rest ih =>
    rw [insertSorted]
    split
    · exact (List.Perm.cons b ih).trans (List.Perm.swap a b rest)
    · exact List.Perm.refl _

theorem sortResults_perm (l : List ScanResult) : (sortResults l).Perm l := by
  induction l with
  | nil => exact List.Perm.refl _
  | cons a rest ih =>
    exact (insertSorted_perm a (sortResults rest)).trans (List.Perm.cons a ih)

/-- Path normalization of runner.py lines 227-229: strip the repo-path prefix
and any leading slashes from the file path. -/
def normPath (repo_path : String) (r : ScanResult) : ScanResult :=
  if repo_path.data.isPrefixOf r.file_path.data then
    { r with file_path := ⟨dropSlashes (r.file_path.data.drop repo_path.data.length)⟩ }
  else r

/-- The statistics dict returned by `run_scan` (runner.py lines 233-240). -/
structure ScanStats where
  total_files_scanned : Nat
  raw_hits : Nat
  after_dedup : Nat
  after_schema_validation : Nat
  after_filter : Nat
  scanner_hits : List (String × Nat)
deriving DecidableEq, Repr

/-- The dict returned by `run_scan` (results plus stats). -/
structure RunOutput where
  results : List ScanResult
  stats : ScanStats
deriving DecidableEq, Repr

/-- The value of the (repeatedly reassigned) local `deduped` at runner.py
line 221: deduplication, then the reverse-direction filter, the known-table
filter, the self-table exclusion, and schema validation when a column map is
available. -/
def run_scan_deduped (all_results : List ScanResult) (known_tables : List String)
    (schema_columns : SchemaColumns) (table_name : String) (strict_mode : Bool) :
    List ScanResult :=
  let d1 := _deduplicate all_results
  let d2 := d1.filter (fun r => decide (r.reference_type ∉ _REVERSE_TYPES))
  let d3 := if known_tables ≠ [] then
      d2.filter (fun r => decide (r.table_name ∈ known_tables)) else d2
  let d4 := d3.filter (fun r => decide (r.table_name ≠ table_name))
  if schema_columns ≠ [] then _validate_schema_columns d4 schema_columns strict_mode
  else d4

/-- The final `results` list of `run_scan`: minimum-confidence filter, the
deterministic sort, and path normalization (runner.py lines 221-229). -/
def run_scan_results (all_results : List ScanResult) (known_tables : List String)
    (schema_columns : SchemaColumns) (table_name : String) (repo_path : String)
    (min_confidence : Confidence) (strict_mode : Bool) : List ScanResult :=
  let filtered := (run_scan_deduped all_results known_tables schema_columns
      table_name strict_mode).filter (fun r => Confidence.ge r.confidence min_confidence)
  (sortResults filtered).map (normPath repo_path)

/-- The dict returned by `run_scan` (runner.py lines 231-241), as a function of
the raw scanner output and the schema-indexing results. -/
def run_scan_post (all_results : List ScanResult) (known_tables : List String)
    (schema_columns : SchemaColumns) (table_name : String) (repo_path : String)
    (min_confidence : Confidence) (strict_mode : Bool) (total_files : Nat)
    (scanner_hits : List (String × Nat)) : RunOutput :=
  { results := run_scan_results all_results known_tables schema_columns table_name
      repo_path min_confidence strict_mode
    stats :=
      { total_files_scanned := total_files
        raw_hits := all_results.length
        after_dedup := (run_scan_deduped all_results known_tables schema_columns
            table_name strict_mode).length
        after_schema_validation := (run_scan_deduped all_results known_tables
            schema_columns table_name strict_mode).length
        after_filter := (run_scan_results all_results known_tables schema_columns
            table_name repo_path min_confidence strict_mode).length
        scanner_hits := scanner_hits } }

/-- Path normalization never touches any field other than `file_path`. -/
theorem normPath_fields (rp : String) (r : ScanResult) :
    (normPath rp r).reference_type = r.reference_type ∧
    (normPath rp r).confidence = r.confidence ∧
    (normPath rp r).schema_verified = r.schema_verified := by
  unfold normPath
  split <;> exact ⟨rfl, rfl, rfl⟩

/-- Every final result is the normalization of a post-validation record that
passed the minimum-confidence filter. -/
theorem mem_run_scan_results (all_results : List ScanResult) (kt : List String)
    (sc : SchemaColumns) (tn rp : String) (mc : Confidence) (sm : Bool)
    (r' : ScanResult)
    (h : r' ∈ run_scan_results all_results kt sc tn rp mc sm) :
    ∃ x ∈ run_scan_deduped all_results kt sc tn sm,
      Confidence.ge x.confidence mc = true ∧ r' = normPath rp x := by
  unfold run_scan_results at h
  rcases List.mem_map.mp h with ⟨x, hx, hn⟩
  rw [(sortResults_perm _).mem_iff] at hx
  have hf := List.mem_filter.mp hx
  exact ⟨x, hf.1, hf.2, hn.symm⟩

/-- Every post-validation record descends from a deduplicated record that is
not reverse-direction, either unchanged, with a datatype attached, or
downgraded to LOW/unverified. -/
theorem mem_run_scan_deduped (all_results : List ScanResult) (kt : List String)
    (sc : SchemaColumns) (tn : String) (sm : Bool) (x : ScanResult)
    (h : x ∈ run_scan_deduped all_results kt sc tn sm) :
    ∃ y ∈ _deduplicate all_results,
      y.reference_type ∉ _REVERSE_TYPES ∧
      (x = y ∨ (∃ dt, x = { y with column_datatype := some dt }) ∨
        x = { y with schema_verified := false, confidence := Confidence.LOW }) := by
  simp only [run_scan_deduped] at h
  have hd4 : ∃ y4, y4 ∈ ((if kt ≠ [] then
        (( _deduplicate all_results).filter
          (fun r => decide (r.reference_type ∉ _REVERSE_TYPES))).filter
            (fun r => decide (r.table_name ∈ kt))
      else (_deduplicate all_results).filter
          (fun r => decide (r.reference_type ∉ _REVERSE_TYPES))).filter
        (fun r => decide (r.table_name ≠ tn))) ∧
      (x = y4 ∨ (∃ dt, x = { y4 with column_datatype := some dt }) ∨
        x = { y4 with schema_verified := false, confidence := Confidence.LOW }) := by
    split at h
    · rcases mem_validate_schema_columns _ _ _ _ h with ⟨y4, hy4, hc⟩
      exact ⟨y4, hy4, hc⟩
    · exact ⟨x, h, Or.inl rfl⟩
  rcases hd4 with ⟨y4, hy4, hshape⟩
  have hy3 := List.mem_filter.mp hy4
  have hy2 : y4 ∈ (_deduplicate all_results).filter
      (fun r => decide (r.reference_type ∉ _REVERSE_TYPES)) := by
    rcases hy3 with ⟨hy3, _⟩
    split at hy3
    · exact (List.mem_filter.mp hy3).1
    · exact hy3
  have hy1 := List.mem_filter.mp hy2
  refine ⟨y4, hy1.1, by simpa using hy1.2, hshape⟩

/-- C4: no evidence record whose reference kind is a reverse-direction
association (MODEL_HAS_MANY_REVERSE or MODEL_HAS_ONE_REVERSE) ever appears in
the final result list returned by `run_scan`, for any raw scanner output,
schema index, and configuration. -/
theorem run_scan_no_reverse_in_results (all_results : List ScanResult)
    (kt : List String) (sc : SchemaColumns) (tn rp : String) (mc : Confidence)
    (sm : Bool) (tf : Nat) (sh : List (String × Nat)) :
    ∀ r ∈ (run_scan_post all_results kt sc tn rp mc sm tf sh).results,
      r.reference_type ≠ ReferenceType.MODEL_HAS_MANY_REVERSE ∧
      r.reference_type ≠ ReferenceType.MODEL_HAS_ONE_REVERSE := by
  intro r hr
  rcases mem_run_scan_results all_results kt sc tn rp mc sm r hr with ⟨x, hx, _, hxr⟩
  rcases mem_run_scan_deduped all_results kt sc tn sm x hx with ⟨y, _, hrev, hshape⟩
  have hxy : x.reference_type = y.reference_type := by
    rcases hshape with h | ⟨dt, h⟩ | h <;> subst h <;> rfl
  have hrx : r.reference_type = x.reference_type := by
    subst hxr
    exact (normPath_fields rp x).1
  simp only [_REVERSE_TYPES, List.mem_cons, List.not_mem_nil, or_false,
    not_or] at hrev
  rw [hrx, hxy]
  exact hrev

/-- Witness for C4: a concrete belongs-to hit flows through the pipeline and is
indeed not reverse-direction. -/
theorem run_scan_no_reverse_in_results_witness :
    sampleHigh.reference_type ≠ ReferenceType.MODEL_HAS_MANY_REVERSE ∧
    sampleHigh.reference_type ≠ ReferenceType.MODEL_HAS_ONE_REVERSE :=
  run_scan_no_reverse_in_results [sampleHigh] [] [] "rewards" "" Confidence.LOW
    false 1 [] sampleHigh (by decide)

/-- C5: if every raw evidence record enters the pipeline with
`schema_verified = true` (as all scanner-constructed records do — the
dataclass default in `models.py`), then every final result of `run_scan` with
`schema_verified = false` has confidence exactly LOW: the only operation that
clears the flag (lenient-mode validation, runner.py lines 124-126)
simultaneously forces confidence to LOW, and no later stage touches either
field. -/
theorem run_scan_unverified_implies_low (all_results : List ScanResult)
    (kt : List String) (sc : SchemaColumns) (tn rp : String) (mc : Confidence)
    (sm : Bool) (tf : Nat) (sh : List (String × Nat))
    (hall : ∀ r ∈ all_results, r.schema_verified = true) :
    ∀ r ∈ (run_scan_post all_results kt sc tn rp mc sm tf sh).results,
      r.schema_verified = false → r.confidence = Confidence.LOW := by
  intro r hr hv
  rcases mem_run_scan_results all_results kt sc tn rp mc sm r hr with ⟨x, hx, _, hxr⟩
  rcases mem_run_scan_deduped all_results kt sc tn sm x hx with ⟨y, hy, _, hshape⟩
  have hyv : y.schema_verified = true := hall y (deduplicate_subset _ _ hy)
  have hfields := normPath_fields rp x
  subst hxr
  rw [hfields.2.2] at hv
  rw [hfields.2.1]
  rcases hshape with h | ⟨dt, h⟩ | h <;> subst h
  · exact absurd hv (by simp [hyv])
  · exact absurd hv (by simp [hyv])
  · rfl

/-- Witness for C5: a lenient-mode run downgrades a hit whose column is absent
from its table's schema entry; the theorem applied there yields LOW. -/
theorem run_scan_unverified_implies_low_witness :
    ({ sampleHigh with
        schema_verified := false
        confidence := Confidence.LOW } : ScanResult).confidence = Confidence.LOW :=
  run_scan_unverified_implies_low [sampleHigh] [] [("orders", [("id", "bigint")])]
    "rewards" "" Confidence.LOW false 1 [] (by decide) _ (by decide) (by decide)

/-- A reverse-direction hit used to separate the two dedup counts. -/
def sampleReverse : ScanResult :=
  { file_path := "app/models/business.rb"
    line_number := 5
    table_name := "rewards"
    column_name := "business_id"
    reference_type := .MODEL_HAS_MANY_REVERSE
    code_snippet := "has_many :rewards"
    confidence := .HIGH }

/-- Counterexample for C6: on a raw list containing one reverse-direction hit,
the reported `after_dedup` statistic (0) differs from the count of records
immediately after deduplication (1) — `run_scan` computes `len(deduped)` only
after the directional/table/validation filters have reassigned `deduped`. -/
theorem run_scan_after_dedup_not_immediate :
    (run_scan_post [sampleReverse] [] [] "rewards" "" Confidence.LOW false 1
        []).stats.after_dedup ≠ (_deduplicate [sampleReverse]).length := by
  decide

/-- C6 amended: the statistics summary reports the total number of files
scanned, the raw hit count before deduplication, the per-scanner raw hit
mapping, the count after filtering, and — in both `after_dedup` and
`after_schema_validation` — the count after deduplication AND the
reverse-direction, known-table, self-table and schema-validation filters, not
the count immediately after deduplication. -/
theorem run_scan_stats_fields (all_results : List ScanResult) (kt : List String)
    (sc : SchemaColumns) (tn rp : String) (mc : Confidence) (sm : Bool)
    (tf : Nat) (sh : List (String × Nat)) :
    (run_scan_post all_results kt sc tn rp mc sm tf sh).stats =
      { total_files_scanned := tf
        raw_hits := all_results.length
        after_dedup := (run_scan_deduped all_results kt sc tn sm).length
        after_schema_validation := (run_scan_deduped all_results kt sc tn sm).length
        after_filter := (run_scan_post all_results kt sc tn rp mc sm tf sh).results.length
        scanner_hits := sh } := rfl

/-! ## Inflection (`inflection.py`)

Words are lists of characters.  `str.lower()` is modelled on the ASCII
fragment (`pyLower`); all identifiers handled by the scanner are ASCII. -/

/-- ASCII model of `str.lower()` on one character. -/
def pyLower (c : Char) : Char :=
  if 65 ≤ c.toNat ∧ c.toNat ≤ 90 then Char.ofNat (c.toNat + 32) else c

theorem charToNat_inj (a b : Char) (h : a.toNat = b.toNat) : a = b :=
  Char.eq_of_val_eq (UInt32.eq_of_val_eq (Fin.ext h))

theorem ofNat_small_toNat (n : Nat) (h : n < 55296) : (Char.ofNat n).toNat = n := by
  unfold Char.ofNat
  split
  · rfl
  · simp [Nat.isValidChar] at *
    omega

theorem pyLower_toNat (c : Char) :
    (pyLower c).toNat =
      if 65 ≤ c.toNat ∧ c.toNat ≤ 90 then c.toNat + 32 else c.toNat := by
  unfold pyLower
  by_cases h : 65 ≤ c.toNat ∧ c.toNat ≤ 90
  · rw [if_pos h, if_pos h]
    exact ofNat_small_toNat _ (by omega)
  · rw [if_neg h, if_neg h]

theorem pyLower_idem (c : Char) : pyLower (pyLower c) = pyLower c := by
  apply charToNat_inj
  simp only [pyLower_toNat]
  split_ifs <;> omega

theorem pyLower_underscore (c : Char) (h : pyLower c = '_') : c = '_' := by
  have h2 := congrArg Char.toNat h
  rw [pyLower_toNat] at h2
  apply charToNat_inj
  have h95 : ('_').toNat = 95 := by decide
  rw [h95]
  rw [h95] at h2
  split_ifs at h2 <;> omega

/-- A list whose characters are all fixed by `pyLower` maps to itself. -/
theorem map_pyLower_self (l : List Char) (h : ∀ c ∈ l, pyLower c = c) :
    l.map pyLower = l := by
  induction l with
  | nil => rfl
  | cons c rest ih =>
    rw [List.map_cons, h c (by simp), ih (fun x hx => h x (by simp [hx]))]

/-- `lower.rsplit("_", 1)`: split at the last underscore, when one exists. -/
def splitLastUS : List Char → Option (List Char × List Char)
  | [] => none
  | c :: rest =>
    match splitLastUS rest with
    | some pq => some (c :: pq.1, pq.2)
    | none => if c = '_' then some ([], rest) else none

theorem splitLastUS_spec (l : List Char) :
    (∀ p q, splitLastUS l = some (p, q) → l = p ++ '_' :: q ∧ '_' ∉ q) ∧
    (splitLastUS l = none ↔ '_' ∉ l) := by
  induction l with
  | nil =>
    constructor
    · intro p q h
      simp [splitLastUS] at h
    · simp [splitLastUS]
  | cons c rest ih =>
    obtain ⟨ihs, ihn⟩ := ih
    constructor
    · intro p q h
      cases hr : splitLastUS rest with
      | some pq =>
        simp only [splitLastUS, hr, Option.some.injEq, Prod.mk.injEq] at h
        obtain ⟨hpq, hnq⟩ := ihs pq.1 pq.2 (by rw [hr])
        refine ⟨?_, h.2 ▸ hnq⟩
        rw [← h.1, ← h.2, List.cons_append, ← hpq]
      | none =>
        simp only [splitLastUS, hr] at h
        by_cases hc : c = '_'
        · rw [if_pos hc] at h
          simp only [Option.some.injEq, Prod.mk.injEq] at h
          refine ⟨?_, h.2 ▸ ihn.mp hr⟩
          rw [← h.1, ← h.2, hc]
          rfl
        · rw [if_neg hc] at h
          exact absurd h (by simp)
    · cases hr : splitLastUS rest with
      | some pq =>
        simp only [splitLastUS, hr, List.mem_cons, not_or]
        constructor
        · intro h
          exact absurd h (by simp)
        · intro h
          exact absurd (ihn.mpr h.2) (by rw [hr]; simp)
      | none =>
        simp only [splitLastUS, hr]
        by_cases hc : c = '_'
        · rw [if_pos hc]
          simp only [hc, List.mem_cons, not_or]
          constructor
          · intro h
            exact absurd h (by simp)
          · intro h
            exact absurd trivial h.1
        · rw [if_neg hc]
          simp only [List.mem_cons, not_or]
          constructor
          · intro _
            exact ⟨fun he => hc he.symm, ihn.mp hr⟩
          · intro _
            trivial

/-- `IRREGULAR_PLURAL_TO_SINGULAR` from inflection.py (plural -> singular). -/
def IRREGULAR_PLURAL_TO_SINGULAR : List (String × String) :=
  [("people", "person"), ("men", "man"), ("women", "woman"),
   ("children", "child"), ("teeth", "tooth"), ("feet", "foot"),
   ("geese", "goose"), ("mice", "mouse"), ("oxen", "ox"), ("data", "datum"),
   ("criteria", "criterion"), ("media", "medium"), ("alumni", "alumnus"),
   ("cacti", "cactus"), ("fungi", "fungus"), ("nuclei", "nucleus"),
   ("radii", "radius"), ("stimuli", "stimulus"), ("syllabi", "syllabus"),
   ("analyses", "analysis"), ("bases", "basis"), ("crises", "crisis"),
   ("diagnoses", "diagnosis"), ("hypotheses", "hypothesis"),
   ("parentheses", "parenthesis"), ("syntheses", "synthesis"),
   ("theses", "thesis")]

/-- `IRREGULAR_SINGULAR_TO_PLURAL` from inflection.py: the inverted dict. -/
def IRREGULAR_SINGULAR_TO_PLURAL : List (String × String) :=
  IRREGULAR_PLURAL_TO_SINGULAR.map (fun p => (p.2, p.1))

/-- The suffix-rule chain of `singularize` on a single already-lowercased
segment (inflection.py lines 59-88): irregular lookup, then "-ies" -> "-y",
"-ves" -> "-fe", sibilant "-es" stripping, "-ses" -> "-s", "-oes" -> "-o",
generic "-s" strip (not after a double "s"), else unchanged. -/
def singularizeSeg (lower : List Char) : List Char :=
  match lookupStr IRREGULAR_PLURAL_TO_SINGULAR (String.mk lower) with
  | some s => s.data
  | none =>
    if "ies".data.isSuffixOf lower ∧ 4 < lower.length then
      lower.take (lower.length - 3) ++ "y".data
    else if "ves".data.isSuffixOf lower ∧ 4 < lower.length then
      lower.take (lower.length - 3) ++ "fe".data
    else if "sses".data.isSuffixOf lower ∨ "xes".data.isSuffixOf lower ∨
        "zes".data.isSuffixOf lower ∨ "ches".data.isSuffixOf lower ∨
        "shes".data.isSuffixOf lower then
      lower.take (lower.length - 2)
    else if "ses".data.isSuffixOf lower ∧ 4 < lower.length then
      lower.take (lower.length - 2)
    else if "oes".data.isSuffixOf lower ∧ 4 < lower.length then
      lower.take (lower.length - 2)
    else if "s".data.isSuffixOf lower ∧ ¬ "ss".data.isSuffixOf lower then
      lower.take (lower.length - 1)
    else lower

/-- `singularize` from inflection.py.  The Python function recurses on the
last underscore-delimited segment; since `rsplit("_", 1)` leaves no underscore
in that segment, the recursive call reduces to the empty-word check, the
(idempotent) lowercasing and the segment rules, which is inlined here;
`singularize_eq_recursive` below certifies the original recursive equation. -/
def singularize (word : List Char) : List Char :=
  if word = [] then word
  else
    match splitLastUS (word.map pyLower) with
    | some pq => pq.1 ++ '_' ::
        (if pq.2 = [] then pq.2 else singularizeSeg (pq.2.map pyLower))
    | none => singularizeSeg (word.map pyLower)

/-- The suffix-rule chain of `pluralize` on a single already-lowercased
segment (inflection.py lines 107-132): irregular lookup, "-ies" passthrough,
"-fe" -> "-ves", consonant+"y" -> "-ies", sibilant endings -> "+es", else
append "s". -/
def pluralizeSeg (lower : List Char) : List Char :=
  match lookupStr IRREGULAR_SINGULAR_TO_PLURAL (String.mk lower) with
  | some s => s.data
  | none =>
    if "ies".data.isSuffixOf lower then lower
    else if "fe".data.isSuffixOf lower then
      lower.take (lower.length - 2) ++ "ves".data
    else if "y".data.isSuffixOf lower ∧ 2 < lower.length ∧
        lower.getD (lower.length - 2) ' ' ∉ ['a', 'e', 'i', 'o', 'u'] then
      lower.take (lower.length - 1) ++ "ies".data
    else if "s".data.isSuffixOf lower ∨ "x".data.isSuffixOf lower ∨
        "z".data.isSuffixOf lower ∨ "ch".data.isSuffixOf lower ∨
        "sh".data.isSuffixOf lower then
      lower ++ "es".data
    else lower ++ "s".data

/-- `pluralize` from inflection.py, with the single-level recursion on the
last segment inlined exactly as in `singularize`. -/
def pluralize (word : List Char) : List Char :=
  if word = [] then word
  else
    match splitLastUS (word.map pyLower) with
    | some pq => pq.1 ++ '_' ::
        (if pq.2 = [] then pq.2 else pluralizeSeg (pq.2.map pyLower))
    | none => pluralizeSeg (word.map pyLower)

/-- An underscore survives `pyLower` only from an underscore. -/
theorem mem_map_pyLower_underscore (l : List Char) (h : '_' ∈ l.map pyLower) :
    '_' ∈ l := by
  rcases List.mem_map.mp h with ⟨c, hc, he⟩
  rw [← pyLower_underscore c he]
  exact hc

/-- The recursive equation of the Python `singularize`: the inlined definition
satisfies `singularize(parts[0] + "_" + parts[1]) =
parts[0] + "_" + singularize(parts[1])` on the split of the lowered word. -/
theorem singularize_eq_recursive (word : List Char) :
    singularize word =
      if word = [] then word
      else
        match splitLastUS (word.map pyLower) with
        | some pq => pq.1 ++ '_' :: singularize pq.2
        | none => singularizeSeg (word.map pyLower) := by
  by_cases hw : word = []
  · subst hw; rfl
  · cases hsp : splitLastUS (word.map pyLower) with
    | none => simp only [singularize, if_neg hw, hsp]
    | some pq =>
      have hspec := (splitLastUS_spec (word.map pyLower)).1 pq.1 pq.2 (by rw [hsp])
      have hq : '_' ∉ pq.2 := hspec.2
      by_cases hqe : pq.2 = []
      · simp only [singularize, if_neg hw, hsp, if_pos hqe]
      · have hnone : splitLastUS (pq.2.map pyLower) = none :=
          ((splitLastUS_spec (pq.2.map pyLower)).2).mpr
            (fun hm => hq (mem_map_pyLower_underscore _ hm))
        simp only [singularize, if_neg hw, hsp, if_neg hqe, hnone]

/-- A value returned by dict lookup is one of the dict's values. -/
theorem lookupStr_mem_values {α : Type} (t : List (String × α)) (k : String)
    (v : α) (h : lookupStr t k = some v) : ∃ p ∈ t, p.2 = v := by
  induction t with
  | nil => simp [lookupStr] at h
  | cons p rest ih =>
    rw [lookupStr] at h
    by_cases hp : p.1 = k
    · rw [if_pos hp] at h
      simp only [Option.some.injEq] at h
      exact ⟨p, by simp, h⟩
    · rw [if_neg hp] at h
      rcases ih h with ⟨q, hq, hv⟩
      exact ⟨q, by simp [hq], hv⟩

/-- Characters of a lowered list are fixed points of `pyLower`. -/
theorem map_pyLower_lower (l : List Char) : ∀ c ∈ l.map pyLower, pyLower c = c := by
  intro c hc
  rcases List.mem_map.mp hc with ⟨d, _, he⟩
  rw [← he]
  exact pyLower_idem d

theorem singularizeSeg_lower (lower : List Char) (h : ∀ c ∈ lower, pyLower c = c) :
    ∀ c ∈ singularizeSeg lower, pyLower c = c := by
  intro c hc
  cases hlk : lookupStr IRREGULAR_PLURAL_TO_SINGULAR (String.mk lower) with
  | some s =>
    simp only [singularizeSeg, hlk] at hc
    rcases lookupStr_mem_values _ _ _ hlk with ⟨p, hp, hpv⟩
    have htab : ∀ p ∈ IRREGULAR_PLURAL_TO_SINGULAR,
        ∀ c ∈ (Prod.snd p).data, pyLower c = c := by decide
    exact htab p hp c (by rw [hpv]; exact hc)
  | none =>
    simp only [singularizeSeg, hlk] at hc
    split_ifs at hc
    · rcases List.mem_append.mp hc with h2 | h2
      · exact h c (List.mem_of_mem_take h2)
      · exact (by decide : ∀ x ∈ ("y".data : List Char), pyLower x = x) c h2
    · rcases List.mem_append.mp hc with h2 | h2
      · exact h c (List.mem_of_mem_take h2)
      · exact (by decide : ∀ x ∈ ("fe".data : List Char), pyLower x = x) c h2
    · exact h c (List.mem_of_mem_take hc)
    · exact h c (List.mem_of_mem_take hc)
    · exact h c (List.mem_of_mem_take hc)
    · exact h c (List.mem_of_mem_take hc)
    · exact h c hc

theorem pluralizeSeg_lower (lower : List Char) (h : ∀ c ∈ lower, pyLower c = c) :
    ∀ c ∈ pluralizeSeg lower, pyLower c = c := by
  intro c hc
  cases hlk : lookupStr IRREGULAR_SINGULAR_TO_PLURAL (String.mk lower) with
  | some s =>
    simp only [pluralizeSeg, hlk] at hc
    rcases lookupStr_mem_values _ _ _ hlk with ⟨p, hp, hpv⟩
    have htab : ∀ p ∈ IRREGULAR_SINGULAR_TO_PLURAL,
        ∀ c ∈ (Prod.snd p).data, pyLower c = c := by decide
    exact htab p hp c (by rw [hpv]; exact hc)
  | none =>
    simp only [pluralizeSeg, hlk] at hc
    split_ifs at hc
    · exact h c hc
    · rcases List.mem_append.mp hc with h2 | h2
      · exact h c (List.mem_of_mem_take h2)
      · exact (by decide : ∀ x ∈ ("ves".data : List Char), pyLower x = x) c h2
    · rcases List.mem_append.mp hc with h2 | h2
      · exact h c (List.mem_of_mem_take h2)
      · exact (by decide : ∀ x ∈ ("ies".data : List Char), pyLower x = x) c h2
    · rcases List.mem_append.mp hc with h2 | h2
      · exact h c h2
      · exact (by decide : ∀ x ∈ ("es".data : List Char), pyLower x = x) c h2
    · rcases List.mem_append.mp hc with h2 | h2
      · exact h c h2
      · exact (by decide : ∀ x ∈ ("s".data : List Char), pyLower x = x) c h2

theorem singularize_lower (w : List Char) : ∀ c ∈ singularize w, pyLower c = c := by
  intro c hc
  by_cases hw : w = []
  · subst hw
    simp [singularize] at hc
  · cases hsp : splitLastUS (w.map pyLower) with
    | none =>
      simp only [singularize, if_neg hw, hsp] at hc
      exact singularizeSeg_lower _ (map_pyLower_lower w) c hc
    | some pq =>
      have hspec := (splitLastUS_spec (w.map pyLower)).1 pq.1 pq.2 (by rw [hsp])
      simp only [singularize, if_neg hw, hsp] at hc
      rcases List.mem_append.mp hc with h2 | h2
      · exact map_pyLower_lower w c (by rw [hspec.1]; exact List.mem_append.mpr (Or.inl h2))
      · rcases List.mem_cons.mp h2 with h3 | h3
        · rw [h3]; decide
        · by_cases hqe : pq.2 = []
          · rw [if_pos hqe, hqe] at h3
            simp at h3
          · rw [if_neg hqe] at h3
            exact singularizeSeg_lower _ (map_pyLower_lower pq.2) c h3

theorem pluralize_lower (w : List Char) : ∀ c ∈ pluralize w, pyLower c = c := by
  intro c hc
  by_cases hw : w = []
  · subst hw
    simp [pluralize] at hc
  · cases hsp : splitLastUS (w.map pyLower) with
    | none =>
      simp only [pluralize, if_neg hw, hsp] at hc
      exact pluralizeSeg_lower _ (map_pyLower_lower w) c hc
    | some pq =>
      have hspec := (splitLastUS_spec (w.map pyLower)).1 pq.1 pq.2 (by rw [hsp])
      simp only [pluralize, if_neg hw, hsp] at hc
      rcases List.mem_append.mp hc with h2 | h2
      · exact map_pyLower_lower w c (by rw [hspec.1]; exact List.mem_append.mpr (Or.inl h2))
      · rcases List.mem_cons.mp h2 with h3 | h3
        · rw [h3]; decide
        · by_cases hqe : pq.2 = []
          · rw [if_pos hqe, hqe] at h3
            simp at h3
          · rw [if_neg hqe] at h3
            exact pluralizeSeg_lower _ (map_pyLower_lower pq.2) c h3

/-- The recursive equation of the Python `pluralize`. -/
theorem pluralize_eq_recursive (word : List Char) :
    pluralize word =
      if word = [] then word
      else
        match splitLastUS (word.map pyLower) with
        | some pq => pq.1 ++ '_' :: pluralize pq.2
        | none => pluralizeSeg (word.map pyLower) := by
  by_cases hw : word = []
  · subst hw; rfl
  · cases hsp : splitLastUS (word.map pyLower) with
    | none => simp only [pluralize, if_neg hw, hsp]
    | some pq =>
      have hspec := (splitLastUS_spec (word.map pyLower)).1 pq.1 pq.2 (by rw [hsp])
      have hq : '_' ∉ pq.2 := hspec.2
      by_cases hqe : pq.2 = []
      · simp only [pluralize, if_neg hw, hsp, if_pos hqe]
      · have hnone : splitLastUS (pq.2.map pyLower) = none :=
          ((splitLastUS_spec (pq.2.map pyLower)).2).mpr
            (fun hm => hq (mem_map_pyLower_underscore _ hm))
        simp only [pluralize, if_neg hw, hsp, if_neg hqe, hnone]

/-- C10: for every input word, `singularize` and `pluralize` return a fully
lowercase string — every character of the output, including those of the
leading underscore-delimited segments, is a fixed point of lowercasing, so an
input containing uppercase letters never keeps its casing in the output. -/
theorem inflection_fully_lowercase (w : List Char) :
    (∀ c ∈ singularize w, pyLower c = c) ∧ (∀ c ∈ pluralize w, pyLower c = c) :=
  ⟨singularize_lower w, pluralize_lower w⟩

/-- Witness for C10: a mixed-case compound word; characters of both outputs
are fixed by lowercasing. -/
theorem inflection_fully_lowercase_witness :
    pyLower 'u' = 'u' ∧ pyLower 'a' = 'a' :=
  ⟨(inflection_fully_lowercase "USER_Accounts".data).1 'u' (by decide),
   (inflection_fully_lowercase "USER_Accounts".data).2 'a' (by decide)⟩

/-- If a list ending in "s" is a suffix of another list, that list ends in
"s" too. -/
theorem endsS_of_suffix (sfx l : List Char)
    (hs : "s".data.isSuffixOf sfx = true) (h : sfx.isSuffixOf l = true) :
    "s".data.isSuffixOf l = true := by
  rw [List.isSuffixOf_iff_suffix] at *
  exact hs.trans h

/-- A segment that is not an irregular plural and does not end in "s" matches
no suffix rule of `singularizeSeg` (every rule requires a trailing "s"). -/
theorem singularizeSeg_fixpoint (l : List Char)
    (hirr : lookupStr IRREGULAR_PLURAL_TO_SINGULAR (String.mk l) = none)
    (hs : "s".data.isSuffixOf l = false) :
    singularizeSeg l = l := by
  have hns : ¬ "s".data.isSuffixOf l = true := by rw [hs]; simp
  simp only [singularizeSeg, hirr]
  rw [if_neg (fun h => hns (endsS_of_suffix _ _ (by decide) h.1))]
  rw [if_neg (fun h => hns (endsS_of_suffix _ _ (by decide) h.1))]
  rw [if_neg ?hsib]
  rw [if_neg (fun h => hns (endsS_of_suffix _ _ (by decide) h.1))]
  rw [if_neg (fun h => hns (endsS_of_suffix _ _ (by decide) h.1))]
  rw [if_neg (fun h => hns h.1)]
  case hsib =>
    rintro (h | h | h | h | h) <;> exact hns (endsS_of_suffix _ _ (by decide) h)

/-- The last underscore-delimited segment of a word (the part `singularize`
applies its suffix rules to). -/
def lastSeg (l : List Char) : List Char :=
  match splitLastUS l with
  | some pq => pq.2
  | none => l

/-- An all-lowercase word whose last segment is neither an irregular plural
nor "s"-terminated is a fixed point of `singularize`. -/
theorem singularize_fixpoint (s : List Char)
    (hlow : ∀ c ∈ s, pyLower c = c)
    (hirr : lookupStr IRREGULAR_PLURAL_TO_SINGULAR (String.mk (lastSeg s)) = none)
    (hs : "s".data.isSuffixOf (lastSeg s) = false) :
    singularize s = s := by
  by_cases hse : s = []
  · rw [hse]; rfl
  · have hmap : s.map pyLower = s := map_pyLower_self _ hlow
    cases hsp : splitLastUS s with
    | none =>
      have hls : lastSeg s = s := by simp only [lastSeg, hsp]
      rw [hls] at hirr hs
      simp only [singularize, if_neg hse, hmap, hsp]
      exact singularizeSeg_fixpoint _ hirr hs
    | some pq =>
      have hspec := (splitLastUS_spec s).1 pq.1 pq.2 (by rw [hsp])
      have hls : lastSeg s = pq.2 := by simp only [lastSeg, hsp]
      rw [hls] at hirr hs
      simp only [singularize, if_neg hse, hmap, hsp]
      rw [show s = pq.1 ++ '_' :: pq.2 from hspec.1]
      by_cases hqe : pq.2 = []
      · rw [if_pos hqe]
      · rw [if_neg hqe]
        have hq2low : ∀ c ∈ pq.2, pyLower c = c := by
          intro c hc
          exact hlow c (by
            rw [hspec.1]
            exact List.mem_append.mpr (Or.inr (List.mem_cons_of_mem _ hc)))
        rw [map_pyLower_self _ hq2low, singularizeSeg_fixpoint pq.2 hirr hs]

/-- Counterexample for C8: `singularize` is not idempotent — "buses"
singularizes to "bus", which singularizes again to "bu". -/
theorem singularize_not_idempotent_buses :
    singularize (singularize "buses".data) ≠ singularize "buses".data := by
  decide

/-- C8 amended: `singularize` is idempotent on every word whose singularized
form has a last underscore-delimited segment that is not an irregular-plural
key and does not end in "s"; in general idempotency fails (e.g. "buses" →
"bus" → "bu": the generic "-s" strip fires again on the already-singular
result). -/
theorem singularize_idempotent_amended (w : List Char)
    (hirr : lookupStr IRREGULAR_PLURAL_TO_SINGULAR
        (String.mk (lastSeg (singularize w))) = none)
    (hs : "s".data.isSuffixOf (lastSeg (singularize w)) = false) :
    singularize (singularize w) = singularize w :=
  singularize_fixpoint (singularize w) (singularize_lower w) hirr hs

/-- Witness for C8: "companies" singularizes to "company", on which a second
application is the identity. -/
theorem singularize_idempotent_amended_witness :
    singularize (singularize "companies".data) = singularize "companies".data :=
  singularize_idempotent_amended "companies".data (by decide) (by decide)

/-- Counterexample for C9: "pies" ends in "-ies" and is not irregular, but the
"-ies" rule requires length greater than 4, so the generic "-s" strip fires
instead: the result is "pie", not "py". -/
theorem singularize_ies_counterexample : singularize "pies".data ≠ "py".data := by
  decide

/-- C9 amended: for every single-segment word (no underscore after lowering)
that is not in the irregular-noun table, ends in "-ies" after lowercasing, AND
has length greater than 4, `singularize` returns the lowered word with its
trailing "ies" replaced by "y" (the "-ies" rule fires before any later suffix
rule); words of length 4 or less fall through to later rules instead. -/
theorem singularize_ies_amended (w : List Char)
    (hus : '_' ∉ w.map pyLower)
    (hirr : lookupStr IRREGULAR_PLURAL_TO_SINGULAR (String.mk (w.map pyLower)) = none)
    (hies : "ies".data.isSuffixOf (w.map pyLower) = true)
    (hlen : 4 < w.length) :
    singularize w = (w.map pyLower).take (w.length - 3) ++ "y".data := by
  have hw : w ≠ [] := by
    intro h
    subst h
    simp at hlen
  have hnone : splitLastUS (w.map pyLower) = none := (splitLastUS_spec _).2.mpr hus
  simp only [singularize, if_neg hw, hnone, singularizeSeg, hirr]
  rw [if_pos ⟨hies, by rw [List.length_map]; exact hlen⟩, List.length_map]

/-- Witness for C9: "categories" → "category". -/
theorem singularize_ies_amended_witness :
    singularize "categories".data =
      ("categories".data.map pyLower).take ("categories".data.length - 3) ++
        "y".data :=
  singularize_ies_amended "categories".data (by decide) (by decide) (by decide)
    (by decide)

/-! ## The scanner registry and the orchestrator's `scan_all` call

`scanners/__init__.py` registers seven scanner classes.  Every class inherits
`BaseScanner.scan_all(self, categorized_files, on_file=None)` (base.py lines
27-31) except `PolymorphicScanner`, which overrides it as
`scan_all(self, categorized_files)` (polymorphic_scanner.py line 17).
`run_scan` invokes `scanner.scan_all(categorized, on_file=_on_file)`
(runner.py line 190) — one positional argument plus the `on_file` keyword. -/

/-- The seven registered scanner classes, in registry order. -/
inductive ScannerClass where
  | SchemaScanner
  | MigrationScanner
  | ModelScanner
  | RawSqlScanner
  | ConfigScanner
  | ContextualScanner
  | PolymorphicScanner
deriving DecidableEq, Repr

/-- `ALL_SCANNERS` from scanners/__init__.py. -/
def ALL_SCANNERS : List ScannerClass :=
  [.SchemaScanner, .MigrationScanner, .ModelScanner, .RawSqlScanner,
   .ConfigScanner, .ContextualScanner, .PolymorphicScanner]

/-- The parameter names (after `self`) of each class's effective `scan_all`
method under Python method resolution: the `BaseScanner` signature for the six
inheriting classes, and the override's signature for `PolymorphicScanner`. -/
def scanAllParams : ScannerClass → List String
  | .PolymorphicScanner => ["categorized_files"]
  | _ => ["categorized_files", "on_file"]

/-- Python call compatibility for a call with `nPos` positional arguments and
the given keyword names, against a parameter list with no `**kwargs`: the
positional arguments must fit and every keyword must name a declared
parameter, else the call raises `TypeError`. -/
def callOk (params : List String) (nPos : Nat) (kwargs : List String) : Bool :=
  decide (nPos ≤ params.length) && kwargs.all (fun k => params.contains k)

/-- Whether `scanner.scan_all(categorized, on_file=_on_file)` (runner.py line
190) is well-formed for a given scanner class. -/
def run_scan_call_ok (c : ScannerClass) : Bool :=
  callOk (scanAllParams c) 1 ["on_file"]

/-- C1 (code-bug evidence): the orchestrator's `scan_all` invocation is NOT
accepted by every registered scanner.  `PolymorphicScanner.scan_all` lacks the
`on_file` parameter that runner.py line 190 passes by keyword, so that call
raises `TypeError`; the exception is not caught anywhere in `run_scan`, so the
whole scan aborts, contrary to the propagation policy that only per-file
failures occur and are isolated.  The six other scanners inherit
`BaseScanner.scan_all` and accept the call. -/
theorem run_scan_polymorphic_call_fails :
    run_scan_call_ok ScannerClass.PolymorphicScanner = false ∧
    ¬ (∀ c ∈ ALL_SCANNERS, run_scan_call_ok c = true) ∧
    ∀ c ∈ ALL_SCANNERS, c ≠ ScannerClass.PolymorphicScanner →
      run_scan_call_ok c = true := by
  decide

/-! ## Schema indexer: `_extract_schema_columns` (runner.py lines 33-83)

The two regexes, `create_table\s+"(\w+)"` and `\bt\.(\w+)\s+[":]([\w]+)`, are
modelled as deterministic left-to-right scanners.  After each greedy
repetition the next required character class is disjoint from the repeated one
(`\w` before `\s`, `\s` before `"`/`:`), so regex backtracking can never
produce a match that maximal munch misses, and `re.search` is exactly the
first position at which the whole pattern matches. -/

/-- Python `\w` on the ASCII identifiers the schema file contains. -/
def isWordChar (c : Char) : Bool := c.isAlphanum || c = '_'

/-- Python `\s` on the characters that can occur inside one line. -/
def isSpaceChar (c : Char) : Bool := c = ' ' || c = '\t'

/-- Greedy `p+`: the maximal nonempty prefix satisfying `p`, and the rest. -/
def takeWord (p : Char → Bool) (s : List Char) : Option (List Char × List Char) :=
  if s.takeWhile p = [] then none else some (s.takeWhile p, s.dropWhile p)

/-- Match a literal, returning the rest of the input. -/
def matchLit : List Char → List Char → Option (List Char)
  | [], s => some s
  | c :: cs, s =>
    match s with
    | [] => none
    | d :: ds => if c = d then matchLit cs ds else none

/-- Attempt `create_table\s+"(\w+)"` at the current position. -/
def createMatchAt (s : List Char) : Option (List Char) :=
  match matchLit "create_table".data s with
  | none => none
  | some s1 =>
    match takeWord isSpaceChar s1 with
    | none => none
    | some sp =>
      match sp.2 with
      | '"' :: s3 =>
        match takeWord isWordChar s3 with
        | none => none
        | some nm =>
          match nm.2 with
          | '"' :: _ => some nm.1
          | _ => none
      | _ => none

/-- `create_re.search(line)`: the captured table name of the first position at
which `create_table\s+"(\w+)"` matches. -/
def createSearch : List Char → Option (List Char)
  | [] => none
  | c :: rest =>
    match createMatchAt (c :: rest) with
    | some name => some name
    | none => createSearch rest

/-- The `\b` before `t`: the previous character (when any) is not a word
character (`t` itself is one). -/
def boundaryOk : Option Char → Bool
  | none => true
  | some c => ! isWordChar c

/-- Attempt `\bt\.(\w+)\s+[":]([\w]+)` at the current position, given the
previous character. -/
def colMatchAt (prev : Option Char) (s : List Char) :
    Option (List Char × List Char) :=
  match s with
  | c1 :: c2 :: s2 =>
    if c1 = 't' ∧ c2 = '.' ∧ boundaryOk prev then
      match takeWord isWordChar s2 with
      | none => none
      | some ty =>
        match takeWord isSpaceChar ty.2 with
        | none => none
        | some sp =>
          match sp.2 with
          | c :: s5 =>
            if c = '"' ∨ c = ':' then
              match takeWord isWordChar s5 with
              | none => none
              | some nm => some (ty.1, nm.1)
            else none
          | [] => none
    else none
  | _ => none

/-- `col_re.search(line)`: the (type, column-name) captures of the first
position at which the column pattern matches. -/
def colSearch (prev : Option Char) : List Char → Option (List Char × List Char)
  | [] => none
  | c :: rest =>
    match colMatchAt prev (c :: rest) with
    | some r => some r
    | none => colSearch (some c) rest

/-- Python's `pat in line` substring test. -/
def containsSub (pat : List Char) : List Char → Bool
  | [] => pat.isPrefixOf []
  | c :: rest => pat.isPrefixOf (c :: rest) || containsSub pat rest

/-- The state threaded through the line loop of `_extract_schema_columns`. -/
structure ExtractState where
  schema_columns : SchemaColumns
  current_table : Option String
deriving DecidableEq, Repr

/-- Python dict assignment on an inner column dict: replace in place or
append a new key at the end. -/
def dictSetCol : List (String × String) → String → String → List (String × String)
  | [], k, v => [(k, v)]
  | p :: rest, k, v =>
    if p.1 = k then (p.1, v) :: rest else p :: dictSetCol rest k v

/-- `schema_columns[t][k] = v`.  In every run of the extractor the entry for
`t` exists (it was created by `setdefault` when the `create_table` line was
seen), so the empty-map fallback is unreachable there. -/
def setTableCol (sc : SchemaColumns) (t k v : String) : SchemaColumns :=
  match sc with
  | [] => [(t, [(k, v)])]
  | p :: rest =>
    if p.1 = t then (p.1, dictSetCol p.2 k v) :: rest
    else p :: setTableCol rest t k v

/-- `schema_columns.setdefault(current_table, dict())`. -/
def setdefaultTable (sc : SchemaColumns) (t : String) : SchemaColumns :=
  match lookupStr sc t with
  | some _ => sc
  | none => sc ++ [(t, [])]

/-- The non-column DSL keywords skipped at runner.py line 72. -/
def skipColTypes : List String := ["index", "timestamps", "primary_key"]

/-- One iteration of the line loop of `_extract_schema_columns` (runner.py
lines 54-81): a `create_table` match opens a new table context; otherwise,
inside a context, a column match records nothing for the skip keywords,
records `name_id` (and `name_type` when the line is marked polymorphic) for a
`references` shorthand, and records the column with its declared type
otherwise. -/
def processLine (st : ExtractState) (line : List Char) : ExtractState :=
  match createSearch line with
  | some tbl =>
    { schema_columns := setdefaultTable st.schema_columns (String.mk tbl)
      current_table := some (String.mk tbl) }
  | none =>
    match st.current_table with
    | none => st
    | some tbl =>
      match colSearch none line with
      | none => st
      | some tynm =>
        let col_type := String.mk tynm.1
        let col_name := String.mk tynm.2
        if col_type ∈ skipColTypes then st
        else if col_type = "references" then
          let sc1 := setTableCol st.schema_columns tbl (col_name ++ "_id") "bigint"
          let sc2 :=
            if containsSub "polymorphic:".data line = true ∨
                containsSub "polymorphic: true".data line = true then
              setTableCol sc1 tbl (col_name ++ "_type") "string"
            else sc1
          { st with schema_columns := sc2 }
        else
          { st with schema_columns :=
              setTableCol st.schema_columns tbl col_name col_type }

/-- `_extract_schema_columns`: fold the line loop over every schema file's
lines (the `current_table` context persists across files, as in the source,
where it is initialized once before the file loop). -/
def _extract_schema_columns (files : List (List (List Char))) : SchemaColumns :=
  (files.foldl (fun (st : ExtractState) (lines : List (List Char)) =>
      lines.foldl processLine st)
    { schema_columns := [], current_table := none }).schema_columns

theorem takeWhile_append_of (p : Char → Bool) (xs ys : List Char)
    (hxs : ∀ c ∈ xs, p c = true)
    (hys : ∀ c cs, ys = c :: cs → p c = false) :
    (xs ++ ys).takeWhile p = xs ∧ (xs ++ ys).dropWhile p = ys := by
  induction xs with
  | nil =>
    simp only [List.nil_append]
    cases ys with
    | nil => simp
    | cons c cs =>
      have hc := hys c cs rfl
      rw [List.takeWhile_cons, List.dropWhile_cons]
      simp [hc]
  | cons x xs ih =>
    have hx := hxs x (by simp)
    have hrest := ih (fun c hc => hxs c (by simp [hc]))
    rw [List.cons_append, List.takeWhile_cons, List.dropWhile_cons]
    simp [hx, hrest.1, hrest.2]

theorem takeWord_append (p : Char → Bool) (xs ys : List Char) (hne : xs ≠ [])
    (hxs : ∀ c ∈ xs, p c = true)
    (hys : ∀ c cs, ys = c :: cs → p c = false) :
    takeWord p (xs ++ ys) = some (xs, ys) := by
  obtain ⟨ht, hd⟩ := takeWhile_append_of p xs ys hxs hys
  rw [takeWord, ht, hd, if_neg hne]

theorem containsSub_append_right (pat xs ys : List Char)
    (h : containsSub pat ys = true) : containsSub pat (xs ++ ys) = true := by
  induction xs with
  | nil => simpa using h
  | cons c rest ih =>
    simp only [List.cons_append, containsSub, List.append_eq, ih, Bool.or_true]

/-- A `t.references :<name><suffix>` line, indented as in a schema.rb body. -/
def refLine (name suffix : List Char) : List Char :=
  "    t.references :".data ++ (name ++ suffix)

/-- A `t.<type> "<name>"<suffix>` column-declaration line. -/
def colLine (ty name suffix : List Char) : List Char :=
  "    t.".data ++ (ty ++ (' ' :: '"' :: (name ++ ('"' :: suffix))))

theorem takeWord_single (p : Char → Bool) (a d : Char) (l : List Char)
    (ha : p a = true) (hd : p d = false) :
    takeWord p (a :: d :: l) = some ([a], d :: l) := by
  have h := takeWord_append p [a] (d :: l) (by simp)
    (by intro c hc; simp at hc; rw [hc]; exact ha)
    (by intro c cs hcs; injection hcs with h1 _; rw [← h1]; exact hd)
  exact h

theorem colSearch_cons_none (prev : Option Char) (c : Char) (rest : List Char)
    (h : colMatchAt prev (c :: rest) = none) :
    colSearch prev (c :: rest) = colSearch (some c) rest := by
  simp only [colSearch, h]

theorem colSearch_cons_some (prev : Option Char) (c : Char) (rest : List Char)
    (r : List Char × List Char) (h : colMatchAt prev (c :: rest) = some r) :
    colSearch prev (c :: rest) = some r := by
  simp only [colSearch, h]

theorem colMatchAt_not_t (prev : Option Char) (c d : Char) (l : List Char)
    (h : ¬ c = 't') : colMatchAt prev (c :: d :: l) = none := by
  simp only [colMatchAt]
  rw [if_neg (fun hh => h hh.1)]

/-- The column pattern matched right after `t.`: greedy word capture for the
type, the whitespace, the quote or colon, and the word capture for the name. -/
theorem colMatchAt_full (prev : Option Char) (hb : boundaryOk prev = true)
    (ty name tail : List Char) (q : Char)
    (hty : ty ≠ []) (htyw : ∀ c ∈ ty, isWordChar c = true)
    (hq : q = '"' ∨ q = ':')
    (hname : name ≠ []) (hnw : ∀ c ∈ name, isWordChar c = true)
    (htail : ∀ c cs, tail = c :: cs → isWordChar c = false) :
    colMatchAt prev ('t' :: '.' :: (ty ++ (' ' :: q :: (name ++ tail)))) =
      some (ty, name) := by
  have h1 : takeWord isWordChar (ty ++ (' ' :: q :: (name ++ tail))) =
      some (ty, ' ' :: q :: (name ++ tail)) :=
    takeWord_append _ _ _ hty htyw
      (by intro c cs hcs; injection hcs with hc _; rw [← hc]; decide)
  have h2 : takeWord isSpaceChar (' ' :: q :: (name ++ tail)) =
      some ([' '], q :: (name ++ tail)) :=
    takeWord_single _ _ _ _ (by decide)
      (by rcases hq with h | h <;> rw [h] <;> decide)
  have h3 : takeWord isWordChar (name ++ tail) = some (name, tail) :=
    takeWord_append _ _ _ hname hnw htail
  simp only [colMatchAt, h1, h2, h3]
  rw [if_pos ⟨trivial, trivial, hb⟩, if_pos hq]

theorem colSearch_refLine (name suffix : List Char) (hname : name ≠ [])
    (hnw : ∀ c ∈ name, isWordChar c = true)
    (hsuf : ∀ c cs, suffix = c :: cs → isWordChar c = false) :
    colSearch none (refLine name suffix) = some ("references".data, name) := by
  have hexp : refLine name suffix =
      ' ' :: ' ' :: ' ' :: ' ' :: 't' :: '.' ::
        ("references".data ++ (' ' :: ':' :: (name ++ suffix))) := rfl
  rw [hexp]
  rw [colSearch_cons_none _ _ _ (colMatchAt_not_t _ _ _ _ (by decide))]
  rw [colSearch_cons_none _ _ _ (colMatchAt_not_t _ _ _ _ (by decide))]
  rw [colSearch_cons_none _ _ _ (colMatchAt_not_t _ _ _ _ (by decide))]
  rw [colSearch_cons_none _ _ _ (colMatchAt_not_t _ _ _ _ (by decide))]
  exact colSearch_cons_some _ _ _ _
    (colMatchAt_full (some ' ') (by decide) "references".data name suffix ':'
      (by decide) (by decide) (Or.inr rfl) hname hnw hsuf)

theorem colSearch_colLine (ty name suffix : List Char) (hty : ty ≠ [])
    (htyw : ∀ c ∈ ty, isWordChar c = true) (hname : name ≠ [])
    (hnw : ∀ c ∈ name, isWordChar c = true) :
    colSearch none (colLine ty name suffix) = some (ty, name) := by
  have hexp : colLine ty name suffix =
      ' ' :: ' ' :: ' ' :: ' ' :: 't' :: '.' ::
        (ty ++ (' ' :: '"' :: (name ++ ('"' :: suffix)))) := rfl
  rw [hexp]
  rw [colSearch_cons_none _ _ _ (colMatchAt_not_t _ _ _ _ (by decide))]
  rw [colSearch_cons_none _ _ _ (colMatchAt_not_t _ _ _ _ (by decide))]
  rw [colSearch_cons_none _ _ _ (colMatchAt_not_t _ _ _ _ (by decide))]
  rw [colSearch_cons_none _ _ _ (colMatchAt_not_t _ _ _ _ (by decide))]
  exact colSearch_cons_some _ _ _ _
    (colMatchAt_full (some ' ') (by decide) ty name ('"' :: suffix) '"'
      hty htyw (Or.inl rfl) hname hnw
      (by intro c cs hcs; injection hcs with h1 _; rw [← h1]; decide))

/-- C7: inside a table-creation context (a state whose `current_table` is set,
with its schema entry present as `setdefault` guarantees), the line loop of
`_extract_schema_columns` behaves as follows, for any identifier built from
word characters and any non-word-leading rest of line that does not itself
match the table-creation pattern: (1) a `t.references :name` declaration not
marked polymorphic records exactly the identifier column `name_id` of type
"bigint"; (2) a `t.references :name, polymorphic: true` declaration records
`name_id` and additionally the type column `name_type` of type "string";
(3) an ordinary `t.<type> "name"` declaration whose type is none of the
skip keywords (and not `references`) records the column `name` with its
declared type; (4) a declaration whose type is `index`, `timestamps` or
`primary_key` records no column at all. -/
theorem extract_schema_line_cases (st : ExtractState) (tbl : String)
    (cols : List (String × String))
    (hcur : st.current_table = some tbl)
    (hlook : lookupStr st.schema_columns tbl = some cols) :
    (∀ name suffix : List Char, name ≠ [] → (∀ c ∈ name, isWordChar c = true) →
      (∀ c cs, suffix = c :: cs → isWordChar c = false) →
      createSearch (refLine name suffix) = none →
      containsSub "polymorphic:".data (refLine name suffix) = false →
      containsSub "polymorphic: true".data (refLine name suffix) = false →
      processLine st (refLine name suffix) =
        { st with schema_columns :=
            (setTableCol st.schema_columns tbl (String.mk name ++ "_id") "bigint") }) ∧
    (∀ name : List Char, name ≠ [] → (∀ c ∈ name, isWordChar c = true) →
      createSearch (refLine name ", polymorphic: true".data) = none →
      processLine st (refLine name ", polymorphic: true".data) =
        { st with schema_columns :=
            (setTableCol
              (setTableCol st.schema_columns tbl (String.mk name ++ "_id") "bigint")
              tbl (String.mk name ++ "_type") "string") }) ∧
    (∀ ty name suffix : List Char, ty ≠ [] → (∀ c ∈ ty, isWordChar c = true) →
      name ≠ [] → (∀ c ∈ name, isWordChar c = true) →
      String.mk ty ∉ skipColTypes → String.mk ty ≠ "references" →
      createSearch (colLine ty name suffix) = none →
      processLine st (colLine ty name suffix) =
        { st with schema_columns :=
            (setTableCol st.schema_columns tbl (String.mk name) (String.mk ty)) }) ∧
    (∀ ty name suffix : List Char, String.mk ty ∈ skipColTypes →
      name ≠ [] → (∀ c ∈ name, isWordChar c = true) →
      createSearch (colLine ty name suffix) = none →
      processLine st (colLine ty name suffix) = st) := by
  refine ⟨?_, ?_, ?_, ?_⟩
  · intro name suffix hname hnw hsuf hcreate hp1 hp2
    simp only [processLine, hcreate, hcur,
      colSearch_refLine name suffix hname hnw hsuf]
    simp [hp1, hp2, skipColTypes]
  · intro name hname hnw hcreate
    have hsuf : ∀ c cs, ", polymorphic: true".data = c :: cs →
        isWordChar c = false := by
      intro c cs h
      injection h with h1 _
      rw [← h1]
      decide
    have hpoly : containsSub "polymorphic:".data
        (refLine name ", polymorphic: true".data) = true := by
      rw [refLine]
      exact containsSub_append_right _ _ _
        (containsSub_append_right _ _ _ (by decide))
    simp only [processLine, hcreate, hcur,
      colSearch_refLine name ", polymorphic: true".data hname hnw hsuf]
    simp [hpoly, skipColTypes]
  · intro ty name suffix hty htyw hname hnw hskip href hcreate
    simp only [processLine, hcreate, hcur,
      colSearch_colLine ty name suffix hty htyw hname hnw]
    rw [if_neg hskip, if_neg href]
  · intro ty name suffix hskip hname hnw hcreate
    have hcases : ty = ("index" : String).data ∨ ty = ("timestamps" : String).data ∨
        ty = ("primary_key" : String).data := by
      simp only [skipColTypes, List.mem_cons, List.not_mem_nil, or_false] at hskip
      rcases hskip with h | h | h
      · exact Or.inl (congrArg String.data h)
      · exact Or.inr (Or.inl (congrArg String.data h))
      · exact Or.inr (Or.inr (congrArg String.data h))
    rcases hcases with h | h | h
    · subst h
      simp only [processLine, hcreate, hcur,
        colSearch_colLine ("index" : String).data name suffix (by decide)
          (by decide) hname hnw]
      try rfl
      try simp [skipColTypes]
    · subst h
      simp only [processLine, hcreate, hcur,
        colSearch_colLine ("timestamps" : String).data name suffix (by decide)
          (by decide) hname hnw]
      try rfl
      try simp [skipColTypes]
    · subst h
      simp only [processLine, hcreate, hcur,
        colSearch_colLine ("primary_key" : String).data name suffix (by decide)
          (by decide) hname hnw]
      try rfl
      try simp [skipColTypes]

/-- A concrete context used to instantiate the C7 theorem. -/
def widgetState : ExtractState :=
  { schema_columns := [("widgets", [("id", "bigint")])]
    current_table := some "widgets" }

/-- Witness for C7: the theorem applied in a concrete `widgets` table context
to a plain reference, a polymorphic reference, an integer column and an index
declaration. -/
theorem extract_schema_line_cases_witness :
    (processLine widgetState (refLine "reward".data []) =
      { widgetState with schema_columns :=
          (setTableCol widgetState.schema_columns "widgets"
            (String.mk "reward".data ++ "_id") "bigint") }) ∧
    (processLine widgetState (refLine "owner".data ", polymorphic: true".data) =
      { widgetState with schema_columns :=
          (setTableCol
            (setTableCol widgetState.schema_columns "widgets"
              (String.mk "owner".data ++ "_id") "bigint")
            "widgets" (String.mk "owner".data ++ "_type") "string") }) ∧
    (processLine widgetState (colLine "integer".data "price_cents".data []) =
      { widgetState with schema_columns :=
          (setTableCol widgetState.schema_columns "widgets"
            (String.mk "price_cents".data) (String.mk "integer".data)) }) ∧
    (processLine widgetState (colLine "index".data "reward_id".data []) =
      widgetState) := by
  obtain ⟨h1, h2, h3, h4⟩ := extract_schema_line_cases widgetState "widgets"
    [("id", "bigint")] (by decide) (by decide)
  exact ⟨h1 "reward".data [] (by decide) (by decide) (by intro c cs h; cases h)
      (by decide) (by decide) (by decide),
    h2 "owner".data (by decide) (by decide) (by decide),
    h3 "integer".data "price_cents".data [] (by decide) (by decide) (by decide)
      (by decide) (by decide) (by decide) (by decide),
    h4 "index".data "reward_id".data [] (by decide) (by decide) (by decide)
      (by decide)⟩

end RewardsScanner
